import Mathlib

/-
Verification of the antilles geometric extraction and masking pipeline.

Each definition below is a shallow embedding of a function of the
repository (antilles/utils/math.py, antilles/pipeline/extract.py,
cpplugins/makewedgemask.py).  Real-valued quantities of the original
code (angles, radii, physical calibration) are modelled by ℝ; Python
ints by ℤ; table cells by ℚ and String.  Python's float modulo `a % b`
(which for `b > 0` lands in `[0, b)`) is `pymod`; Python's `int(...)`
truncation toward zero is `intTrunc`; `math.atan2 y x` and
`numpy.arctan2 y x` are `atan2` below, defined through `Complex.arg`
(both return the angle of the point `(x, y)` in `(-π, π]`).

Definitions whose names match the Python functions are translated from
the source line by line.  Definitions whose names start with `spec` are
instead written from the specification's words, for comparison against
the source-derived ones.
-/
open Real

noncomputable section

/-- Python float `a % b`, i.e. `a - b * ⌊a / b⌋` (result has the divisor's
sign; for `b > 0` it lies in `[0, b)`). -/
def pymod (a b : ℝ) : ℝ := a - b * ⌊a / b⌋

/-- Python `int(x)`: truncation toward zero. -/
def intTrunc (x : ℝ) : ℤ := if 0 ≤ x then ⌊x⌋ else ⌈x⌉

/-- `math.atan2 y x` / `numpy.arctan2 y x`, via `Complex.arg`. -/
def atan2 (y x : ℝ) : ℝ := ((x : ℂ) + (y : ℂ) * Complex.I).arg

/-- `math.radians`. -/
def radians (d : ℝ) : ℝ := d * (π / 180)

/-- `math.degrees`. -/
def degrees (r : ℝ) : ℝ := r * (180 / π)

/-- The angle-normalization step of `pol2cart` (antilles/utils/math.py,
line 19): `theta = (theta + 180) % 360 - 180`. -/
def normAngle (θ : ℝ) : ℝ := pymod (θ + 180) 360 - 180

/-- `cart2pol` (antilles/utils/math.py), in the degree mode (`in_deg = True`)
used by the pipeline: radius `√(x² + y²)`, angle `degrees (atan2 y x)`. -/
def cart2pol (x y : ℝ) : ℝ × ℝ :=
  (Real.sqrt (x ^ 2 + y ^ 2), degrees (atan2 y x))

/-- `pol2cart` (antilles/utils/math.py), in the degree mode
(`in_degs = True`) used by the pipeline: normalizes the degree angle,
converts to radians, and returns `(r·cos θ, r·sin θ)`. -/
def pol2cart (r θ : ℝ) : ℝ × ℝ :=
  (r * Real.cos (radians (normAngle θ)), r * Real.sin (radians (normAngle θ)))

-- The wedge bounding box (antilles/pipeline/extract.py, `calc_bbox`).
/-- `numpy.linspace a b n` (with the default `endpoint=True`): `n` evenly
spaced samples from `a` to `b` inclusive; `[a]` when `n = 1`. -/
def linspace (a b : ℝ) (n : ℕ) : List ℝ :=
  if n = 0 then []
  else if n = 1 then [a]
  else (List.range n).map (fun i => a + (b - a) * i / (n - 1))

/-- The sampled wedge-boundary offsets of `calc_bbox`
(antilles/pipeline/extract.py, lines 29-42): `n_div0 = int(200·span/360)`
outer-arc angles across the span paired with `radius_outer`, then the
complementary `n_div1 = 200 - n_div0` reflex-arc angles paired with
`radius_inner`, each converted to a cartesian offset by `pol2cart`. -/
def bboxOffsets (angle span radius_inner radius_outer : ℝ) : List (ℝ × ℝ) :=
  let nDiv0 : ℤ := intTrunc (200 * span / 360)
  let nDiv1 : ℤ := 200 - nDiv0
  let hspan := span / 2
  (linspace (angle - hspan) (angle + hspan) nDiv0.toNat).map
      (fun a => pol2cart radius_outer a) ++
    (linspace (angle + hspan) (angle + 360 - hspan) nDiv1.toNat).map
      (fun a => pol2cart radius_inner a)

/-- The running minimum of `calc_bbox`'s loop: the fold starts from the
first sampled value (the source initializes `min_dx` to the first offset on
the first iteration; `headD 0` only differs on an empty sample list, which
no reachable span produces since `n_div0 + n_div1 = 200`). -/
def foldMin (l : List ℝ) : ℝ := l.foldl min (l.headD 0)

/-- The running maximum of `calc_bbox`'s loop (see `foldMin`). -/
def foldMax (l : List ℝ) : ℝ := l.foldl max (l.headD 0)

/-- One low bbox coordinate: `int(max(c + min_d, 0))`. -/
def bboxLo (c : ℤ) (ds : List ℝ) : ℤ :=
  intTrunc (max ((c : ℝ) + foldMin ds) 0)

/-- One high bbox coordinate: `int(min(c + max_d, dim))`. -/
def bboxHi (c : ℤ) (dim : ℕ) (ds : List ℝ) : ℤ :=
  intTrunc (min ((c : ℝ) + foldMax ds) (dim : ℝ))

/-- `calc_bbox` (antilles/pipeline/extract.py, lines 20-65): sample the
wedge boundary, take the running min/max offsets, add the center, clip to
the image, truncate to int, and return the clipped origin and
`(max - min)` sizes.  The `span`/`radius_inner`/`radius_outer` keyword
defaults (90, 400, 800) are supplied by callers here. -/
def calc_bbox (dims : ℕ × ℕ) (center : ℤ × ℤ)
    (angle span radius_inner radius_outer : ℝ) : (ℤ × ℤ) × (ℤ × ℤ) :=
  let offs := bboxOffsets angle span radius_inner radius_outer
  let minX := bboxLo center.1 (offs.map Prod.fst)
  let maxX := bboxHi center.1 dims.1 (offs.map Prod.fst)
  let minY := bboxLo center.2 (offs.map Prod.snd)
  let maxY := bboxHi center.2 dims.2 (offs.map Prod.snd)
  ((minX, minY), (maxX - minX, maxY - minY))

-- The region-extraction coordinate computation (`extract_image`).
/-- Python 3 `round` to int: nearest integer, ties to the even integer. -/
def pyround (x : ℝ) : ℤ :=
  if Int.fract x < 1 / 2 then ⌊x⌋
  else if 1 / 2 < Int.fract x then ⌈x⌉
  else if 2 ∣ ⌊x⌋ then ⌊x⌋ else ⌊x⌋ + 1

/-- The result record of `extract_image` (its `oxy`/`cxy`/`wxy`/`dims`
dictionary entries; `mpp` is carried separately as a parameter below). -/
structure ExtractProps where
  oxy : ℤ × ℤ
  cxy : ℤ × ℤ
  wxy : ℤ × ℤ
  dims : ℤ × ℤ

/-- The coordinate computation of `extract_image` (extract.py lines
137-155): radii are converted from microns to pixels by `microns2pixels`
(the numeric happy path, a plain division by mpp), the bounding box comes
from `calc_bbox`, the crop-local center is `center - origin`, and the
synthetic well point sits `400 / mpp` pixels from the new center along the
facing angle, rounded to int.  Reading the slide and writing the crop are
outside the model; the slide dimensions and its mpp metadata are
parameters. -/
def extract_image (dims : ℕ × ℕ) (mpp : ℝ) (center : ℤ × ℤ)
    (angle span radius_inner radius_outer : ℝ) : ExtractProps :=
  let bb := calc_bbox dims center angle span (radius_inner / mpp) (radius_outer / mpp)
  let cx := center.1 - bb.1.1
  let cy := center.2 - bb.1.2
  let d := pol2cart (400 / mpp) angle
  { oxy := bb.1
    cxy := (cx, cy)
    wxy := (pyround ((cx : ℝ) + d.1), pyround ((cy : ℝ) + d.2))
    dims := bb.2 }

-- The region table and the merge translator (`update_translate`).
/-- One row of the persisted region table, with the required columns
`relpath, project, block, panel, level, sample, cohorts, drug, origin_x,
origin_y, center_x, center_y, well_x, well_y, mpp, metadata` (the `width`/
`height` entries built by `extract_wedges` are dropped by its final column
selection and never persisted).  Numeric pandas cells are modelled by ℚ;
`metadata` is the opaque string blob. -/
structure Row where
  relpath : String
  project : String
  block : String
  panel : String
  level : ℤ
  sample : String
  cohorts : String
  drug : String
  origin_x : ℚ
  origin_y : ℚ
  center_x : ℚ
  center_y : ℚ
  well_x : ℚ
  well_y : ℚ
  mpp : ℚ
  metadata : String
deriving DecidableEq

/-- The identity-key match of `update_translate` (extract.py lines
161-164): equality on the six identity columns. -/
def matchKey (r u : Row) : Bool :=
  r.project == u.project && r.block == u.block && r.panel == u.panel &&
    r.level == u.level && r.sample == u.sample && r.drug == u.drug

/-- The per-row body of `update_translate` (extract.py lines 162-185): when
exactly one identity match `u` exists in `prev`, re-base `u`'s center and
well points by the origin shift `diff = r.origin - u.origin`, clamp each
coordinate below at `buffer = 5`, and carry over `u.metadata`; with zero or
several matches the row is left unchanged. -/
def updateRow (prev : List Row) (r : Row) : Row :=
  match prev.filter (fun u => matchKey r u) with
  | [u] =>
    { r with
      center_x := max (u.center_x - (r.origin_x - u.origin_x)) 5
      center_y := max (u.center_y - (r.origin_y - u.origin_y)) 5
      well_x := max (u.well_x - (r.origin_x - u.origin_x)) 5
      well_y := max (u.well_y - (r.origin_y - u.origin_y)) 5
      metadata := u.metadata }
  | _ => r

/-- `update_translate` (extract.py lines 158-187).  The source mutates `df`
row by row, but each row's update reads only that row's identity and origin
columns (never touched by the updates) and the separate `using` table, so
the iteration is a per-row map. -/
def update_translate (df prev : List Row) : List Row := df.map (updateRow prev)

/-- A baseline region-table row for the concrete scenarios below. -/
def baseRow : Row where
  relpath := "P_B_p1_LVL1_s1_d.tif"
  project := "P"
  block := "B"
  panel := "p1"
  level := 1
  sample := "s1"
  cohorts := "c1"
  drug := "d"
  origin_x := 0
  origin_y := 0
  center_x := 100
  center_y := 100
  well_x := 100
  well_y := 100
  mpp := 1
  metadata := "{}"

/-- The previous row of the spec's concrete re-extraction scenario:
center (100,100), metadata carrying a human review flag. -/
def prevRowC3 : Row :=
  { baseRow with origin_x := 100, origin_y := 100,
                 metadata := "\x7b\x22include\x22: true\x7d" }

/-- The freshly extracted row of the same scenario: the crop origin has
shifted by (+20, -5) relative to `prevRowC3`. -/
def newRowC3 : Row := { baseRow with origin_x := 120, origin_y := 95 }

/-- A row with a center x-coordinate below the 5-pixel clamp margin. -/
def lowRowC4 : Row := { baseRow with center_x := 2 }

/-- A fresh row sharing `baseRow`'s identity key, with a shifted origin. -/
def dupNewRow : Row := { baseRow with origin_x := 10 }

/-- First of two previous rows with the same (duplicated) identity key. -/
def dupPrevA : Row := { baseRow with center_x := 30 }

/-- Second of two previous rows with the same (duplicated) identity key. -/
def dupPrevB : Row := { baseRow with center_x := 40 }

-- Micron-to-pixel parameter conversion (`microns2pixels`, claim C7).
/-- A Python value as the wedge-parameter dictionaries hold them: a number,
a string, or None. -/
inductive PyVal where
  | num (q : ℚ)
  | str (s : String)
  | pynone
deriving DecidableEq

/-- Whether a `PyVal` is numeric (dividable by a float without a
`TypeError`). -/
def PyVal.isNum : PyVal → Bool
  | .num _ => true
  | _ => false

/-- One iteration of `microns2pixels` (extract.py lines 109-113), i.e.
`try: dct[key] /= mpp except TypeError: pass`: a missing key raises
`KeyError` when the dict is subscripted — the `except` clause only catches
`TypeError`, so the error propagates (modelled as `Except.error key`); a
present non-numeric value raises `TypeError`, which is caught, leaving the
dict unchanged; a present numeric value is divided in place. -/
def divKey (dct : List (String × PyVal)) (key : String) (mpp : ℚ) :
    Except String (List (String × PyVal)) :=
  match dct.lookup key with
  | Option.none => .error key
  | Option.some (.num q) =>
      .ok (dct.map (fun kv => if kv.1 = key then (kv.1, .num (q / mpp)) else kv))
  | Option.some _ => .ok dct

/-- `microns2pixels` (extract.py lines 108-114): thread the dictionary
through `divKey` for each requested key in order, stopping at the first
uncaught `KeyError`. -/
def microns2pixels (dct : List (String × PyVal)) (keys : List String) (mpp : ℚ) :
    Except String (List (String × PyVal)) :=
  match keys with
  | [] => .ok dct
  | k :: ks =>
    match divKey dct k mpp with
    | .error e => .error e
    | .ok d => microns2pixels d ks mpp

-- Fresh-extraction row construction (`Extractor.extract_wedges`, claim C10).
/-- The identity fields of one extraction job, as yielded by
`get_extraction_sequence` together with the destination path from
`get_filepath`. -/
structure Job where
  project : String
  block : String
  panel : String
  level : ℤ
  sample : String
  cohorts : String
  drug : String
  dst : String
deriving DecidableEq

/-- The per-job results of `extract_image` as consumed by the row builder
(`props` in extract.py lines 231-248), with pandas-numeric cells as ℚ.
The `width`/`height` entries are also produced but dropped by the final
column selection. -/
structure JobProps where
  ox : ℚ
  oy : ℚ
  cx : ℚ
  cy : ℚ
  wx : ℚ
  wy : ℚ
  mpp : ℚ
deriving DecidableEq

/-- One output row of `Extractor.extract_wedges` (extract.py lines
233-250): the job's identity fields plus the extraction results, with
`metadata` set to `json.dumps({})`, i.e. exactly the string `"{}"`. -/
def mkRegionRow (j : Job) (p : JobProps) : Row where
  relpath := j.dst
  project := j.project
  block := j.block
  panel := j.panel
  level := j.level
  sample := j.sample
  cohorts := j.cohorts
  drug := j.drug
  origin_x := p.ox
  origin_y := p.oy
  center_x := p.cx
  center_y := p.cy
  well_x := p.wx
  well_y := p.wy
  mpp := p.mpp
  metadata := "{}"

/-- The row-building loop of `Extractor.extract_wedges` (extract.py lines
226-250), over the job list produced by `get_extraction_sequence`.  The
per-job image extraction (`extract_image`, which reads and writes files) is
abstracted as the `props` map. -/
def extract_wedges_rows (jobs : List Job) (props : Job → JobProps) : List Row :=
  jobs.map (fun j => mkRegionRow j (props j))

/-- A concrete extraction job for the C10 witness. -/
def jobW : Job where
  project := "P"
  block := "B"
  panel := "p1"
  level := 1
  sample := "s1"
  cohorts := "c1"
  drug := "d"
  dst := "P_B_p1_LVL1_s1_d.tif"

/-- Concrete extraction results for the C10 witness. -/
def jobPropsW : JobProps where
  ox := 10
  oy := 20
  cx := 30
  cy := 40
  wx := 50
  wy := 60
  mpp := 1

-- The wedge mask rasterizer (cpplugins/makewedgemask.py, claim C1).
/-- Membership of pixel `px` in the boolean mask of `make_mask`
(makewedgemask.py lines 95-132).  At pixel `(i, j)` the numpy grid holds
`dx = i - int(x)`, `dy = j - int(y)` (the position is integer here, so
`int` is the identity), `theta = arctan2(dx, dy)` — note the swapped
argument order in the source: the x-offset is passed as `arctan2`'s first
(numerator) argument — then `angle = (th - theta + 3π) % (2π) - π`, and the
pixel is masked iff `(radius-width)² ≤ dx²+dy² ≤ radius²` and
`-span/2 ≤ angle ≤ span/2`, all in radians (`th` and `span` arrive in
degrees and are scaled by `π/180` first). -/
def make_mask_mem (pos : ℤ × ℤ) (width radius th span : ℝ) (px : ℤ × ℤ) : Prop :=
  let dx : ℤ := px.1 - pos.1
  let dy : ℤ := px.2 - pos.2
  let thr := th * (π / 180)
  let hspan := span * (π / 180) / 2
  let θ := atan2 (dx : ℝ) (dy : ℝ)
  let angle := pymod (thr - θ + π * 3) (π * 2) - π
  (radius - width) ^ 2 ≤ ((dx ^ 2 + dy ^ 2 : ℤ) : ℝ) ∧
    ((dx ^ 2 + dy ^ 2 : ℤ) : ℝ) ≤ radius ^ 2 ∧
    -hspan ≤ angle ∧ angle ≤ hspan

/-- The `WedgeParameters` record handed to the rasterizer: mpp, the
device-center and well points in pixels, offset and thickness in microns,
and the full span in degrees. -/
structure WedgeParams where
  mpp : ℝ
  center : ℤ × ℤ
  well : ℤ × ℤ
  offset : ℝ
  thickness : ℝ
  span : ℝ

/-- `make_wedge_mask_from_wedge_params` (makewedgemask.py lines 135-159) as
a per-pixel membership predicate: offset and thickness are converted from
microns to pixels, the well-to-center displacement is fed to
`cart2pol (delta_y, delta_x)` — swapped arguments again — giving the facing
length and angle, and `make_mask` is invoked with
`radius = length + offset + thickness`, `width = thickness`,
`th = that angle`, and `span = span / 2`: half of the full span field. -/
def make_wedge_mask_mem (p : WedgeParams) (px : ℤ × ℤ) : Prop :=
  let wedgeOffset := p.offset / p.mpp
  let wedgeThickness := p.thickness / p.mpp
  let dX : ℤ := p.well.1 - p.center.1
  let dY : ℤ := p.well.2 - p.center.2
  let centerLength := (cart2pol (dY : ℝ) (dX : ℝ)).1
  let centerAngle := (cart2pol (dY : ℝ) (dX : ℝ)).2
  make_mask_mem p.center wedgeThickness
    (centerLength + wedgeOffset + wedgeThickness) centerAngle (p.span / 2) px

/-- Modelled from the spec: the normalization of an angular difference in
degrees into the half-open-above interval `(-180, 180]` demanded by the
claim (`θ - 360·⌈θ/360 - 1/2⌉` is the unique such representative). -/
def specNormHi (θ : ℝ) : ℝ := θ - 360 * ⌈θ / 360 - 1 / 2⌉

/-- Modelled from the spec (claim C1 and §4.6): pixel `px` is in-mask iff
`(outer_radius - thickness)² ≤ dx²+dy² ≤ outer_radius²` and the pixel's
angle relative to the facing angle — both in the clockwise-from-+x, y-down
convention, i.e. ordinary `atan2 dy dx` on image coordinates — lies within
`± span/2` after normalizing the angular difference into `(-180, 180]`,
where `span` is the full span field, `thickness = thickness/mpp` px and
`outer_radius = |well - center| + offset/mpp + thickness/mpp` px. -/
def specWedgeMask (p : WedgeParams) (px : ℤ × ℤ) : Prop :=
  let T := p.thickness / p.mpp
  let dX : ℤ := p.well.1 - p.center.1
  let dY : ℤ := p.well.2 - p.center.2
  let R := Real.sqrt ((dX : ℝ) ^ 2 + (dY : ℝ) ^ 2) + p.offset / p.mpp + T
  let dx : ℤ := px.1 - p.center.1
  let dy : ℤ := px.2 - p.center.2
  let diff := specNormHi (degrees (atan2 (dy : ℝ) (dx : ℝ)) -
    degrees (atan2 (dY : ℝ) (dX : ℝ)))
  (R - T) ^ 2 ≤ ((dx ^ 2 + dy ^ 2 : ℤ) : ℝ) ∧
    ((dx ^ 2 + dy ^ 2 : ℤ) : ℝ) ≤ R ^ 2 ∧
    -(p.span / 2) ≤ diff ∧ diff ≤ p.span / 2

/-- The wedge parameters of the C1 counterexample: mpp 1, center (20,20),
well (20,30) (facing straight down the +y axis), no offset, thickness 5 px,
full span 300°. -/
def wedgeParamsCex : WedgeParams where
  mpp := 1
  center := (20, 20)
  well := (20, 30)
  offset := 0
  thickness := 5
  span := 300

/-- The amended membership condition (see `make_wedge_mask_mem_iff`): like
`specWedgeMask` but with the angular window `± span/4` and the angular
difference normalized into `[-180, 180)`. -/
def specWedgeMaskAmended (p : WedgeParams) (px : ℤ × ℤ) : Prop :=
  let T := p.thickness / p.mpp
  let dX : ℤ := p.well.1 - p.center.1
  let dY : ℤ := p.well.2 - p.center.2
  let R := Real.sqrt ((dX : ℝ) ^ 2 + (dY : ℝ) ^ 2) + p.offset / p.mpp + T
  let dx : ℤ := px.1 - p.center.1
  let dy : ℤ := px.2 - p.center.2
  let diff := normAngle (degrees (atan2 (dy : ℝ) (dx : ℝ)) -
    degrees (atan2 (dY : ℝ) (dX : ℝ)))
  (R - T) ^ 2 ≤ ((dx ^ 2 + dy ^ 2 : ℤ) : ℝ) ∧
    ((dx ^ 2 + dy ^ 2 : ℤ) : ℝ) ≤ R ^ 2 ∧
    -(p.span / 4) ≤ diff ∧ diff ≤ p.span / 4

-- Theorems.

-- Basic facts about `pymod` and `normAngle`.
theorem pymod_nonneg (a : ℝ) {b : ℝ} (hb : 0 < b) : 0 ≤ pymod a b := by
  have h := Int.sub_one_lt_floor (a / b)
  have h2 : (⌊a / b⌋ : ℝ) ≤ a / b := Int.floor_le _
  have : b * (⌊a / b⌋ : ℝ) ≤ b * (a / b) := by
    exact mul_le_mul_of_nonneg_left h2 hb.le
  rw [mul_div_cancel₀ _ hb.ne'] at this
  simpa [pymod] using this

theorem pymod_lt (a : ℝ) {b : ℝ} (hb : 0 < b) : pymod a b < b := by
  have h : a / b < ⌊a / b⌋ + 1 := Int.lt_floor_add_one _
  have : b * (a / b) < b * ((⌊a / b⌋ : ℝ) + 1) := by
    exact mul_lt_mul_of_pos_left h hb
  rw [mul_div_cancel₀ _ hb.ne'] at this
  simp only [pymod]
  nlinarith

theorem pymod_sub_eq (a b : ℝ) : a - pymod a b = b * ⌊a / b⌋ := by
  simp [pymod]

theorem normAngle_lb (θ : ℝ) : -180 ≤ normAngle θ := by
  have := pymod_nonneg (θ + 180) (show (0:ℝ) < 360 by norm_num)
  simp only [normAngle]
  linarith

theorem normAngle_ub (θ : ℝ) : normAngle θ < 180 := by
  have := pymod_lt (θ + 180) (show (0:ℝ) < 360 by norm_num)
  simp only [normAngle]
  linarith

theorem normAngle_congruent (θ : ℝ) : ∃ k : ℤ, θ - normAngle θ = 360 * k := by
  refine ⟨⌊(θ + 180) / 360⌋, ?_⟩
  have := pymod_sub_eq (θ + 180) 360
  simp only [normAngle]
  linarith

theorem normAngle_eq_self {θ : ℝ} (h1 : -180 ≤ θ) (h2 : θ < 180) :
    normAngle θ = θ := by
  have hfl : ⌊(θ + 180) / 360⌋ = 0 := by
    rw [Int.floor_eq_zero_iff]
    constructor
    · apply div_nonneg (by linarith) (by norm_num)
    · rw [div_lt_one (by norm_num)]; linarith
  simp [normAngle, pymod, hfl]

/-- C8 (amended): `pol2cart` normalizes its degree angle argument into the
half-open-below interval `[-180, 180)` (not `(-180, 180]`) before converting
to radians, and the normalized angle is congruent to the input modulo 360;
the trigonometric evaluation is applied to the normalized angle. -/
theorem pol2cart_normalizes (θ r : ℝ) :
    -180 ≤ normAngle θ ∧ normAngle θ < 180 ∧
      (∃ k : ℤ, θ - normAngle θ = 360 * k) ∧
      pol2cart r θ =
        (r * Real.cos (radians (normAngle θ)), r * Real.sin (radians (normAngle θ))) :=
  ⟨normAngle_lb θ, normAngle_ub θ, normAngle_congruent θ, rfl⟩

/-- C8 counterexample: at input angle 180° the normalized angle is exactly
-180, which lies outside the claimed interval `(-180, 180]`. -/
theorem normAngle_boundary_cex :
    normAngle 180 = -180 ∧ ¬ (-180 < normAngle (180 : ℝ)) := by
  have hfl : ⌊(180 + 180 : ℝ) / 360⌋ = 1 := by
    norm_num
  constructor
  · simp [normAngle, pymod, hfl]
    norm_num
  · simp [normAngle, pymod, hfl]
    norm_num

-- Round-trip facts (claim C9).
theorem radians_degrees (x : ℝ) : degrees (radians x) = x := by
  have hπ : (π : ℝ) ≠ 0 := Real.pi_ne_zero
  field_simp [radians, degrees]

/-- C9 (amended): for strictly positive radius `r` and any angle `θ`, the
round trip `cart2pol (pol2cart r θ)` recovers `r` exactly and recovers an
angle congruent to `θ` modulo 360 (exactly, with no tolerance needed).  For
`r < 0` the radius comes back as `-r`, and for `r = 0` the angle comes back
as 0, so the claim's unrestricted quantification over `(r, θ)` fails. -/
theorem cart2pol_pol2cart_roundtrip (r θ : ℝ) (hr : 0 < r) :
    (cart2pol (pol2cart r θ).1 (pol2cart r θ).2).1 = r ∧
      ∃ k : ℤ, (cart2pol (pol2cart r θ).1 (pol2cart r θ).2).2 - θ = 360 * k := by
  set a := radians (normAngle θ) with ha
  constructor
  · simp only [cart2pol, pol2cart]
    have hsq : (r * Real.cos a) ^ 2 + (r * Real.sin a) ^ 2 = r ^ 2 := by
      have := Real.sin_sq_add_cos_sq a
      ring_nf
      nlinarith [Real.sin_sq_add_cos_sq a]
    rw [hsq]
    exact Real.sqrt_sq hr.le
  · simp only [cart2pol, pol2cart, atan2]
    have harg : ((↑(r * Real.cos a) : ℂ) + (↑(r * Real.sin a) : ℂ) * Complex.I) =
        (r : ℂ) * (Complex.cos a + Complex.sin a * Complex.I) := by
      push_cast [Complex.ofReal_cos, Complex.ofReal_sin]
      ring
    rw [harg, Complex.arg_mul_cos_add_sin_mul_I_eq_toIocMod hr]
    -- the returned angle is the Ioc-normalized representative of `a` mod 2π
    obtain ⟨k₁, hk₁⟩ := normAngle_congruent θ
    have htio : toIocMod Real.two_pi_pos (-π) a =
        a - toIocDiv Real.two_pi_pos (-π) a • (2 * π) := by
      rw [toIocMod]
    set n := toIocDiv Real.two_pi_pos (-π) a with hn
    refine ⟨-n - k₁, ?_⟩
    rw [htio]
    have hdeg : degrees (a - n • (2 * π)) = normAngle θ - n * 360 := by
      have : a - n • (2 * π) = radians (normAngle θ - n * 360) := by
        simp only [ha, radians, zsmul_eq_mul]
        ring
      rw [this, radians_degrees]
    rw [hdeg]
    push_cast
    linarith

/-- C9 witness for `cart2pol_pol2cart_roundtrip`, at `r = 1`, `θ = 0`. -/
theorem cart2pol_pol2cart_roundtrip_witness :
    (cart2pol (pol2cart 1 0).1 (pol2cart 1 0).2).1 = 1 ∧
      ∃ k : ℤ, (cart2pol (pol2cart 1 0).1 (pol2cart 1 0).2).2 - 0 = 360 * k :=
  cart2pol_pol2cart_roundtrip 1 0 (by norm_num)

/-- C9 counterexample: at `(r, θ) = (-1, 0)` the round trip returns radius
`1 ≠ -1`, so the claim's "recovers `r` exactly for all `(r, θ)`" is false. -/
theorem cart2pol_pol2cart_neg_radius_cex :
    (cart2pol (pol2cart (-1) 0).1 (pol2cart (-1) 0).2).1 ≠ -1 := by
  have hnorm : normAngle 0 = 0 := normAngle_eq_self (by norm_num) (by norm_num)
  have hrad : radians (normAngle 0) = 0 := by rw [hnorm]; simp [radians]
  simp only [cart2pol, pol2cart, hrad, Real.cos_zero, Real.sin_zero]
  norm_num [Real.sqrt_one]

-- Truncation and fold bounds.
theorem intTrunc_nonneg {x : ℝ} (h : 0 ≤ x) : 0 ≤ intTrunc x := by
  simp only [intTrunc, if_pos h]
  exact_mod_cast Int.floor_nonneg.mpr h

theorem intTrunc_le_int {x : ℝ} {m : ℤ} (hx : x ≤ (m : ℝ)) (hm : 0 ≤ m) :
    intTrunc x ≤ m := by
  simp only [intTrunc]
  split
  · exact le_trans (Int.floor_mono hx) (by simp)
  · calc ⌈x⌉ ≤ 0 := Int.ceil_le.mpr (by push_cast; linarith)
      _ ≤ m := hm

theorem int_le_intTrunc {x : ℝ} {m : ℤ} (hx : (m : ℝ) ≤ x) (hm : 0 ≤ (m : ℝ)) :
    m ≤ intTrunc x := by
  have h0 : (0 : ℝ) ≤ x := le_trans hm hx
  simp only [intTrunc, if_pos h0]
  exact Int.le_floor.mpr hx

theorem intTrunc_intCast (m : ℤ) : intTrunc (m : ℝ) = m := by
  simp only [intTrunc]
  split <;> simp

theorem le_foldl_min {l : List ℝ} {c init : ℝ} (h0 : c ≤ init)
    (h : ∀ x ∈ l, c ≤ x) : c ≤ l.foldl min init := by
  induction l generalizing init with
  | nil => exact h0
  | cons a t ih =>
    simp only [List.foldl_cons]
    exact ih (le_min h0 (h a (by simp))) (fun x hx => h x (by simp [hx]))

theorem le_foldl_max {l : List ℝ} {c init : ℝ} (h0 : c ≤ init) :
    c ≤ l.foldl max init := by
  induction l generalizing init with
  | nil => exact h0
  | cons a t ih =>
    simp only [List.foldl_cons]
    exact ih (le_trans h0 (le_max_left _ _))

theorem pol2cart_fst_bounds {r R : ℝ} (hr : 0 ≤ r) (hR : r ≤ R) (a : ℝ) :
    -R ≤ (pol2cart r a).1 ∧ (pol2cart r a).1 ≤ R := by
  simp only [pol2cart]
  constructor
  · nlinarith [Real.neg_one_le_cos (radians (normAngle a)),
      Real.cos_le_one (radians (normAngle a))]
  · nlinarith [Real.neg_one_le_cos (radians (normAngle a)),
      Real.cos_le_one (radians (normAngle a))]

/-- C2 (amended): for every image size, center, angle, span and radii, the
origin returned by `calc_bbox` is componentwise ≥ 0 and origin + size is
componentwise ≤ (width, height).  The claim's further assertions — that the
origin also stays ≤ (width, height) and that the size is non-negative — fail
when the wedge lies entirely outside the image: there the origin can exceed
the image bound and the size can be negative (see the counterexample), not
the claimed (0, 0). -/
theorem calc_bbox_partial_bounds (dims : ℕ × ℕ) (center : ℤ × ℤ)
    (angle span radius_inner radius_outer : ℝ) :
    0 ≤ (calc_bbox dims center angle span radius_inner radius_outer).1.1 ∧
    0 ≤ (calc_bbox dims center angle span radius_inner radius_outer).1.2 ∧
    (calc_bbox dims center angle span radius_inner radius_outer).1.1 +
        (calc_bbox dims center angle span radius_inner radius_outer).2.1 ≤ dims.1 ∧
    (calc_bbox dims center angle span radius_inner radius_outer).1.2 +
        (calc_bbox dims center angle span radius_inner radius_outer).2.2 ≤ dims.2 := by
  simp only [calc_bbox]
  refine ⟨?_, ?_, ?_, ?_⟩
  · exact intTrunc_nonneg (le_max_right _ _)
  · exact intTrunc_nonneg (le_max_right _ _)
  · have h : bboxLo center.1
        ((bboxOffsets angle span radius_inner radius_outer).map Prod.fst) +
        (bboxHi center.1 dims.1
          ((bboxOffsets angle span radius_inner radius_outer).map Prod.fst) -
        bboxLo center.1
          ((bboxOffsets angle span radius_inner radius_outer).map Prod.fst)) =
        bboxHi center.1 dims.1
          ((bboxOffsets angle span radius_inner radius_outer).map Prod.fst) := by
      ring
    rw [h]
    exact intTrunc_le_int (min_le_right _ _) (by positivity)
  · have h : bboxLo center.2
        ((bboxOffsets angle span radius_inner radius_outer).map Prod.snd) +
        (bboxHi center.2 dims.2
          ((bboxOffsets angle span radius_inner radius_outer).map Prod.snd) -
        bboxLo center.2
          ((bboxOffsets angle span radius_inner radius_outer).map Prod.snd)) =
        bboxHi center.2 dims.2
          ((bboxOffsets angle span radius_inner radius_outer).map Prod.snd) := by
      ring
    rw [h]
    exact intTrunc_le_int (min_le_right _ _) (by positivity)

theorem bboxOffsets_fst_bounds {ri ro R : ℝ} (hi : 0 ≤ ri) (hiR : ri ≤ R)
    (ho : 0 ≤ ro) (hoR : ro ≤ R) (angle span : ℝ) :
    ∀ x ∈ (bboxOffsets angle span ri ro).map Prod.fst, -R ≤ x ∧ x ≤ R := by
  intro x hx
  simp only [bboxOffsets, List.map_append, List.map_map, List.mem_append,
    List.mem_map] at hx
  rcases hx with ⟨a, _, ha⟩ | ⟨a, _, ha⟩
  · rw [← ha]
    exact pol2cart_fst_bounds ho hoR a
  · rw [← ha]
    exact pol2cart_fst_bounds hi hiR a

theorem foldMin_ge {l : List ℝ} {c : ℝ} (hc : c ≤ 0) (h : ∀ x ∈ l, c ≤ x) :
    c ≤ foldMin l := by
  apply le_foldl_min _ h
  cases l with
  | nil => simpa [List.headD] using hc
  | cons a t => exact h a (by simp)

theorem foldMax_ge {l : List ℝ} {c : ℝ} (hc : c ≤ 0) (h : ∀ x ∈ l, c ≤ x) :
    c ≤ foldMax l := by
  apply le_foldl_max
  cases l with
  | nil => simpa [List.headD] using hc
  | cons a t => exact h a (by simp)

/-- C2 counterexample: on a 100×100 image with center (1000, 50) — the
wedge (radii ≤ 800) lies entirely to the right of the image — facing 0°,
span 90°, radii 400/800, the returned origin x-coordinate exceeds the image
width (it is ≥ 200 > 100) and the returned width is negative, contradicting
both the in-bounds origin and the non-negative (0, 0) size asserted by the
claim. -/
theorem calc_bbox_outside_cex :
    100 < (calc_bbox (100, 100) (1000, 50) 0 90 400 800).1.1 ∧
      (calc_bbox (100, 100) (1000, 50) 0 90 400 800).2.1 < 0 := by
  have hb : ∀ x ∈ (bboxOffsets 0 90 400 800).map Prod.fst, -800 ≤ x ∧ x ≤ 800 :=
    bboxOffsets_fst_bounds (by norm_num) (by norm_num) (by norm_num) (by norm_num) 0 90
  have hmin : (-800 : ℝ) ≤ foldMin ((bboxOffsets 0 90 400 800).map Prod.fst) :=
    foldMin_ge (by norm_num) (fun x hx => (hb x hx).1)
  have hmax : (-800 : ℝ) ≤ foldMax ((bboxOffsets 0 90 400 800).map Prod.fst) :=
    foldMax_ge (by norm_num) (fun x hx => (hb x hx).1)
  have hlo : (200 : ℤ) ≤ bboxLo 1000 ((bboxOffsets 0 90 400 800).map Prod.fst) := by
    simp only [bboxLo]
    apply int_le_intTrunc _ (by norm_num)
    have h2 : (200 : ℝ) ≤ ((1000 : ℤ) : ℝ) +
        foldMin ((bboxOffsets 0 90 400 800).map Prod.fst) := by
      push_cast
      linarith
    exact le_trans h2 (le_max_left _ _)
  have hhi : bboxHi 1000 100 ((bboxOffsets 0 90 400 800).map Prod.fst) = 100 := by
    simp only [bboxHi]
    rw [min_eq_right (by push_cast; linarith)]
    have hc : ((100 : ℕ) : ℝ) = ((100 : ℤ) : ℝ) := by norm_num
    rw [hc, intTrunc_intCast]
  simp only [calc_bbox]
  constructor
  · omega
  · omega

theorem foldl_min_le_init (l : List ℝ) (init : ℝ) : l.foldl min init ≤ init := by
  induction l generalizing init with
  | nil => exact le_refl _
  | cons a t ih =>
    simp only [List.foldl_cons]
    exact le_trans (ih (min init a)) (min_le_left _ _)

theorem foldMin_le_bound {l : List ℝ} {c : ℝ} (hc : 0 ≤ c)
    (h : ∀ x ∈ l, x ≤ c) : foldMin l ≤ c := by
  unfold foldMin
  cases l with
  | nil => simpa [List.headD] using hc
  | cons a t =>
    exact le_trans (foldl_min_le_init _ _) (h a (by simp))

/-- C6 counterexample: a fresh extraction with device center (-1000, 50) on
a 100×100 slide (mpp 1, facing 0°, span 90°, radii 400/800 µm) produces a
crop-local center x-coordinate of -1000, far outside `[0, width)` of the
crop — `extract_image` applies no clamping at all, so the claimed invariant
is not maintained by extraction. -/
theorem extract_image_center_outside_cex :
    (extract_image (100, 100) 1 (-1000, 50) 0 90 400 800).cxy.1 < 0 := by
  have hb : ∀ x ∈ (bboxOffsets 0 90 (400 / 1) (800 / 1)).map Prod.fst,
      -800 ≤ x ∧ x ≤ 800 :=
    bboxOffsets_fst_bounds (by norm_num) (by norm_num) (by norm_num) (by norm_num) 0 90
  have hmin : foldMin ((bboxOffsets 0 90 (400 / 1) (800 / 1)).map Prod.fst) ≤ 800 :=
    foldMin_le_bound (by norm_num) (fun x hx => (hb x hx).2)
  have hlo : bboxLo (-1000) ((bboxOffsets 0 90 (400 / 1) (800 / 1)).map Prod.fst) = 0 := by
    simp only [bboxLo]
    rw [max_eq_right (by push_cast; linarith)]
    have h0 : (0 : ℝ) = ((0 : ℤ) : ℝ) := by norm_num
    rw [h0, intTrunc_intCast]
  simp only [extract_image, calc_bbox]
  omega

theorem updateRow_of_filter_nil {prev : List Row} {r : Row}
    (hk : prev.filter (fun u => matchKey r u) = []) : updateRow prev r = r := by
  rw [updateRow, hk]

theorem updateRow_of_filter_one {prev : List Row} {r u : Row}
    (hk : prev.filter (fun x => matchKey r x) = [u]) :
    updateRow prev r =
      { r with
        center_x := max (u.center_x - (r.origin_x - u.origin_x)) 5
        center_y := max (u.center_y - (r.origin_y - u.origin_y)) 5
        well_x := max (u.well_x - (r.origin_x - u.origin_x)) 5
        well_y := max (u.well_y - (r.origin_y - u.origin_y)) 5
        metadata := u.metadata } := by
  rw [updateRow, hk]

theorem updateRow_of_filter_pair {prev : List Row} {r u v : Row} {t : List Row}
    (hk : prev.filter (fun x => matchKey r x) = u :: v :: t) :
    updateRow prev r = r := by
  rw [updateRow, hk]

/-- C3: per-row postcondition of the merge.  For a row of the new table
with exactly one identity-key match `u` in the previous table, the merged
row keeps every column of the new row except that its center and well
points become the previous points minus `delta = new.origin - prev.origin`
clamped below at 5, and its metadata becomes the previous metadata
byte-for-byte; a row with no match is returned completely unchanged. -/
theorem update_translate_row_post (df prev : List Row) (i : ℕ) (r : Row)
    (hr : df[i]? = some r) :
    (∀ u, prev.filter (fun x => matchKey r x) = [u] →
      (update_translate df prev)[i]? = some
        { r with
          center_x := max (u.center_x - (r.origin_x - u.origin_x)) 5
          center_y := max (u.center_y - (r.origin_y - u.origin_y)) 5
          well_x := max (u.well_x - (r.origin_x - u.origin_x)) 5
          well_y := max (u.well_y - (r.origin_y - u.origin_y)) 5
          metadata := u.metadata }) ∧
    (prev.filter (fun x => matchKey r x) = [] →
      (update_translate df prev)[i]? = some r) := by
  have hmap : (update_translate df prev)[i]? = Option.map (updateRow prev) df[i]? := by
    simp [update_translate]
  constructor
  · intro u hu
    rw [hmap, hr]
    show some (updateRow prev r) = _
    rw [updateRow_of_filter_one hu]
  · intro hnone
    rw [hmap, hr]
    show some (updateRow prev r) = _
    rw [updateRow_of_filter_nil hnone]

/-- C3 witness: merging the concrete scenario rows yields center (80, 105)
and the previous metadata unchanged. -/
theorem update_translate_row_post_witness :
    (update_translate [newRowC3] [prevRowC3])[0]? = some
      { newRowC3 with
        center_x := max (prevRowC3.center_x - (newRowC3.origin_x - prevRowC3.origin_x)) 5
        center_y := max (prevRowC3.center_y - (newRowC3.origin_y - prevRowC3.origin_y)) 5
        well_x := max (prevRowC3.well_x - (newRowC3.origin_x - prevRowC3.origin_x)) 5
        well_y := max (prevRowC3.well_y - (newRowC3.origin_y - prevRowC3.origin_y)) 5
        metadata := prevRowC3.metadata } :=
  (update_translate_row_post [newRowC3] [prevRowC3] 0 newRowC3 rfl).1
    prevRowC3 (by decide)

-- Idempotence of the merge (claim C4).
theorem updateRow_matchKey (prev : List Row) (r x : Row) :
    matchKey (updateRow prev r) x = matchKey r x := by
  unfold updateRow
  split <;> rfl

theorem updateRow_idem (prev : List Row) (r : Row) :
    updateRow prev (updateRow prev r) = updateRow prev r := by
  have hfilter : prev.filter (fun u => matchKey (updateRow prev r) u) =
      prev.filter (fun u => matchKey r u) := by
    apply List.filter_congr
    intro u _
    rw [updateRow_matchKey]
  cases h : prev.filter (fun u => matchKey r u) with
  | nil =>
    rw [updateRow_of_filter_nil (hfilter.trans h), updateRow_of_filter_nil h]
  | cons u t =>
    cases t with
    | nil =>
      rw [updateRow_of_filter_one (hfilter.trans h), updateRow_of_filter_one h]
    | cons v t' =>
      rw [updateRow_of_filter_pair (hfilter.trans h), updateRow_of_filter_pair h]

theorem updateRow_self {df : List Row} {r : Row}
    (hk : df.filter (fun x => matchKey r x) = [r])
    (h1 : 5 ≤ r.center_x) (h2 : 5 ≤ r.center_y)
    (h3 : 5 ≤ r.well_x) (h4 : 5 ≤ r.well_y) :
    updateRow df r = r := by
  rw [updateRow_of_filter_one hk]
  have e1 : max (r.center_x - (r.origin_x - r.origin_x)) 5 = r.center_x := by
    rw [sub_self, sub_zero]; exact max_eq_left h1
  have e2 : max (r.center_y - (r.origin_y - r.origin_y)) 5 = r.center_y := by
    rw [sub_self, sub_zero]; exact max_eq_left h2
  have e3 : max (r.well_x - (r.origin_x - r.origin_x)) 5 = r.well_x := by
    rw [sub_self, sub_zero]; exact max_eq_left h3
  have e4 : max (r.well_y - (r.origin_y - r.origin_y)) 5 = r.well_y := by
    rw [sub_self, sub_zero]; exact max_eq_left h4
  rw [e1, e2, e3, e4]

/-- C4 (amended): the merge is idempotent for all tables —
`merge (merge new prev) prev = merge new prev` — and merging a table with
unique identity keys against itself is a no-op provided every row's center
and well coordinates are at least the 5-pixel clamp margin.  For a row with
a coordinate below 5, self-merge clamps that coordinate up to 5, so the
claim's unrestricted "self-merge is a no-op" fails (see the
counterexample). -/
theorem update_translate_idempotent :
    (∀ df prev : List Row,
      update_translate (update_translate df prev) prev = update_translate df prev) ∧
    (∀ df : List Row,
      (∀ r ∈ df, df.filter (fun x => matchKey r x) = [r]) →
      (∀ r ∈ df, 5 ≤ r.center_x ∧ 5 ≤ r.center_y ∧ 5 ≤ r.well_x ∧ 5 ≤ r.well_y) →
      update_translate df df = df) := by
  constructor
  · intro df prev
    simp only [update_translate, List.map_map]
    apply List.map_congr_left
    intro r _
    exact updateRow_idem prev r
  · intro df hkey hcoord
    simp only [update_translate]
    have h : ∀ r ∈ df, updateRow df r = r := by
      intro r hrmem
      obtain ⟨c1, c2, c3, c4⟩ := hcoord r hrmem
      exact updateRow_self (hkey r hrmem) c1 c2 c3 c4
    rw [List.map_congr_left h]
    simp

/-- C4 witness for `update_translate_idempotent`: a concrete self-merge
no-op, on a one-row table whose coordinates clear the 5-pixel margin. -/
theorem update_translate_idempotent_witness :
    update_translate [baseRow] [baseRow] = [baseRow] :=
  update_translate_idempotent.2 [baseRow] (by decide) (by decide)

/-- C4 counterexample: merging the table `[lowRowC4]` against itself (delta
is 0 for its only row) is not a no-op — the center x-coordinate 2 is
clamped up to 5 — so "merging a table against itself leaves every row
unchanged" is false as stated. -/
theorem update_translate_self_merge_cex :
    update_translate [lowRowC4] [lowRowC4] ≠ [lowRowC4] := by
  intro hcontra
  have hfil : List.filter (fun x => matchKey lowRowC4 x) [lowRowC4] = [lowRowC4] := by
    decide
  have hrow : updateRow [lowRowC4] lowRowC4 = lowRowC4 := by
    have h1 : update_translate [lowRowC4] [lowRowC4] = [updateRow [lowRowC4] lowRowC4] :=
      rfl
    rw [h1] at hcontra
    injection hcontra
  rw [updateRow_of_filter_one hfil] at hrow
  have hcx := congrArg Row.center_x hrow
  have hred : max (lowRowC4.center_x - (lowRowC4.origin_x - lowRowC4.origin_x)) 5 =
      (5 : ℚ) := by
    have hc : lowRowC4.center_x = 2 := rfl
    have ho : lowRowC4.origin_x = 0 := rfl
    rw [hc, ho]
    rw [max_eq_right (by norm_num)]
  rw [show ({ lowRowC4 with
      center_x := max (lowRowC4.center_x - (lowRowC4.origin_x - lowRowC4.origin_x)) 5,
      center_y := max (lowRowC4.center_y - (lowRowC4.origin_y - lowRowC4.origin_y)) 5,
      well_x := max (lowRowC4.well_x - (lowRowC4.origin_x - lowRowC4.origin_x)) 5,
      well_y := max (lowRowC4.well_y - (lowRowC4.origin_y - lowRowC4.origin_y)) 5,
      metadata := lowRowC4.metadata } : Row).center_x =
      max (lowRowC4.center_x - (lowRowC4.origin_x - lowRowC4.origin_x)) 5 from rfl]
    at hcx
  rw [hred] at hcx
  have : lowRowC4.center_x = 2 := rfl
  rw [this] at hcx
  norm_num at hcx

/-- C5 (amended): when a row of the new table has any number of identity-key
matches other than exactly one — in particular two or more (a duplicate
identity key) — `update_translate` silently returns that row unchanged: no
configuration error is raised and the run is not aborted. -/
theorem update_translate_multi_match_keeps_row (df prev : List Row) (i : ℕ)
    (r : Row) (hr : df[i]? = some r)
    (h : (prev.filter (fun x => matchKey r x)).length ≠ 1) :
    (update_translate df prev)[i]? = some r := by
  have hmap : (update_translate df prev)[i]? = Option.map (updateRow prev) df[i]? := by
    simp [update_translate]
  rw [hmap, hr]
  show some (updateRow prev r) = some r
  cases hf : prev.filter (fun x => matchKey r x) with
  | nil => rw [updateRow_of_filter_nil hf]
  | cons u t =>
    cases t with
    | nil => exact absurd (by rw [hf]; rfl) h
    | cons v t' => rw [updateRow_of_filter_pair hf]

/-- C5 counterexample: with two identity-key matches in the previous table,
the merge completes normally and silently keeps the new row as is — it does
not fail with a configuration error as the claim states. -/
theorem update_translate_dup_silent_cex :
    (List.filter (fun x => matchKey dupNewRow x) [dupPrevA, dupPrevB]).length = 2 ∧
      update_translate [dupNewRow] [dupPrevA, dupPrevB] = [dupNewRow] := by
  constructor
  · decide
  · have hf : List.filter (fun x => matchKey dupNewRow x) [dupPrevA, dupPrevB] =
        [dupPrevA, dupPrevB] := by decide
    show [updateRow [dupPrevA, dupPrevB] dupNewRow] = [dupNewRow]
    rw [updateRow_of_filter_pair hf]

/-- C5 witness for `update_translate_multi_match_keeps_row`, at the
concrete duplicate-key tables. -/
theorem update_translate_multi_match_keeps_row_witness :
    (update_translate [dupNewRow] [dupPrevA, dupPrevB])[0]? = some dupNewRow :=
  update_translate_multi_match_keeps_row [dupNewRow] [dupPrevA, dupPrevB] 0 dupNewRow
    rfl (by decide)

/-- C6 (amended): the operations maintain only part of the claimed
invariant.  For merge-re-based rows (exactly one identity-key match) the
center and well coordinates are always at least the 5-pixel margin, hence
non-negative; but neither extraction (which applies no clamping at all —
see the counterexample, where the crop-local center is -1000) nor merge
(which never clamps against the crop's upper bounds) keeps the points
inside [0, width) × [0, height) of the crop. -/
theorem update_translate_lower_margin (df prev : List Row) (i : ℕ) (r u : Row)
    (hr : df[i]? = some r)
    (hu : prev.filter (fun x => matchKey r x) = [u]) :
    ∃ r', (update_translate df prev)[i]? = some r' ∧
      5 ≤ r'.center_x ∧ 5 ≤ r'.center_y ∧ 5 ≤ r'.well_x ∧ 5 ≤ r'.well_y := by
  have hmap : (update_translate df prev)[i]? = Option.map (updateRow prev) df[i]? := by
    simp [update_translate]
  refine ⟨updateRow prev r, by rw [hmap, hr]; rfl, ?_, ?_, ?_, ?_⟩ <;>
    rw [updateRow_of_filter_one hu]
  · exact le_max_right _ _
  · exact le_max_right _ _
  · exact le_max_right _ _
  · exact le_max_right _ _

/-- C6 witness for `update_translate_lower_margin`, at the concrete
re-extraction scenario rows. -/
theorem update_translate_lower_margin_witness :
    ∃ r', (update_translate [newRowC3] [prevRowC3])[0]? = some r' ∧
      5 ≤ r'.center_x ∧ 5 ≤ r'.center_y ∧ 5 ≤ r'.well_x ∧ 5 ≤ r'.well_y :=
  update_translate_lower_margin [newRowC3] [prevRowC3] 0 newRowC3 prevRowC3
    rfl (by decide)

theorem lookup_map_div (key k : String) (q mpp : ℚ) (t : List (String × PyVal)) :
    List.lookup k (t.map (fun kv => if kv.1 = key then (kv.1, PyVal.num (q / mpp)) else kv))
      = Option.map (fun v => if k = key then PyVal.num (q / mpp) else v)
          (List.lookup k t) := by
  induction t with
  | nil => rfl
  | cons kv t ih =>
    rcases kv with ⟨a, b⟩
    simp only [List.map_cons]
    by_cases hak : a = key
    · rw [if_pos hak]
      by_cases hka : k = a
      · have hb : (k == a) = true := beq_iff_eq.mpr hka
        simp [List.lookup, hb, hka, hka.trans hak, if_pos hak]
      · have hb : (k == a) = false := by simp [hka]
        simp [List.lookup, hb, ih]
    · rw [if_neg hak]
      by_cases hka : k = a
      · have hb : (k == a) = true := beq_iff_eq.mpr hka
        have hknk : ¬ (k = key) := fun hc => hak ((hka.symm.trans hc))
        simp [List.lookup, hb, hknk]
      · have hb : (k == a) = false := by simp [hka]
        simp [List.lookup, hb, ih]

theorem divKey_lookup_isSome {dct : List (String × PyVal)} {key : String}
    {mpp : ℚ} {d : List (String × PyVal)} (h : divKey dct key mpp = .ok d)
    (k : String) : (d.lookup k).isSome = (dct.lookup k).isSome := by
  unfold divKey at h
  cases hl : List.lookup key dct with
  | none => rw [hl] at h; exact absurd h (by simp)
  | some w =>
    rw [hl] at h
    cases w with
    | num q =>
      simp only [Except.ok.injEq] at h
      subst h
      show (List.lookup k _).isSome = _
      rw [lookup_map_div]
      cases h2 : List.lookup k dct <;> simp [h2]
    | str s =>
      simp only [Except.ok.injEq] at h
      subst h
      rfl
    | pynone =>
      simp only [Except.ok.injEq] at h
      subst h
      rfl

theorem divKey_preserves_nonnum {dct : List (String × PyVal)} {key : String}
    {mpp : ℚ} {d : List (String × PyVal)} (h : divKey dct key mpp = .ok d)
    {k : String} {v : PyVal} (hv : dct.lookup k = some v)
    (hnn : v.isNum = false) : d.lookup k = some v := by
  unfold divKey at h
  cases hl : List.lookup key dct with
  | none => rw [hl] at h; exact absurd h (by simp)
  | some w =>
    rw [hl] at h
    cases w with
    | num q =>
      simp only [Except.ok.injEq] at h
      subst h
      show List.lookup k _ = some v
      rw [lookup_map_div, hv]
      have hkne : k ≠ key := by
        intro hc
        rw [← hc] at hl
        have h2 := hv.symm.trans hl
        injection h2 with h3
        rw [h3] at hnn
        simp [PyVal.isNum] at hnn
      simp [if_neg hkne]
    | str s =>
      simp only [Except.ok.injEq] at h
      subst h
      exact hv
    | pynone =>
      simp only [Except.ok.injEq] at h
      subst h
      exact hv

/-- C7 (amended): the micron-to-pixel conversion succeeds if and only if
every requested parameter key is present in the dictionary; a present
non-numeric parameter is skipped silently (its entry is left unchanged in
the result), but an absent parameter makes the conversion fail with an
uncaught `KeyError` — conversion does not "never fail". -/
theorem microns2pixels_spec (dct : List (String × PyVal)) (keys : List String)
    (mpp : ℚ) :
    ((microns2pixels dct keys mpp).isOk = true ↔
      ∀ k ∈ keys, (dct.lookup k).isSome = true) ∧
    (∀ d, microns2pixels dct keys mpp = .ok d →
      ∀ k v, dct.lookup k = some v → v.isNum = false → d.lookup k = some v) := by
  induction keys generalizing dct with
  | nil =>
    refine ⟨by simp [microns2pixels, Except.isOk, Except.toBool], ?_⟩
    intro d hd k v hv _
    simp only [microns2pixels, Except.ok.injEq] at hd
    subst hd
    exact hv
  | cons key ks ih =>
    constructor
    · constructor
      · intro hok k hk
        simp only [microns2pixels] at hok
        cases hd : divKey dct key mpp with
        | error e => rw [hd] at hok; simp [Except.isOk, Except.toBool] at hok
        | ok d =>
          rw [hd] at hok
          rcases List.mem_cons.mp hk with hk | hk
          · subst hk
            unfold divKey at hd
            cases hl : dct.lookup k with
            | none => rw [hl] at hd; exact absurd hd (by simp)
            | some v => simp
          · have := ((ih d).1).mp hok k hk
            rw [divKey_lookup_isSome hd] at this
            exact this
      · intro hall
        simp only [microns2pixels]
        cases hd : divKey dct key mpp with
        | error e =>
          unfold divKey at hd
          cases hl : dct.lookup key with
          | none =>
            have := hall key (by simp)
            rw [hl] at this
            simp at this
          | some v =>
            rw [hl] at hd
            cases v <;> simp at hd
        | ok d =>
          apply ((ih d).1).mpr
          intro k hk
          rw [divKey_lookup_isSome hd]
          exact hall k (by simp [hk])
    · intro d hd k v hv hnn
      simp only [microns2pixels] at hd
      cases hstep : divKey dct key mpp with
      | error e => rw [hstep] at hd; exact absurd hd (by simp)
      | ok d1 =>
        rw [hstep] at hd
        have h1 : d1.lookup k = some v := divKey_preserves_nonnum hstep hv hnn
        exact (ih d1).2 d hd k v h1 hnn

/-- C7 witness for `microns2pixels_spec`: with both radii present — one a
numeric 800, one a non-numeric None — conversion succeeds and the
non-numeric entry comes through unchanged. -/
theorem microns2pixels_spec_witness :
    ((microns2pixels [("radius_inner", PyVal.pynone), ("radius_outer", PyVal.num 800)]
        ["radius_inner", "radius_outer"] 2).isOk = true ↔
      ∀ k ∈ ["radius_inner", "radius_outer"],
        ((([("radius_inner", PyVal.pynone),
            ("radius_outer", PyVal.num 800)]).lookup k).isSome = true)) ∧
      (∀ d, microns2pixels [("radius_inner", PyVal.pynone), ("radius_outer", PyVal.num 800)]
          ["radius_inner", "radius_outer"] 2 = .ok d →
        ∀ k v, (([("radius_inner", PyVal.pynone),
            ("radius_outer", PyVal.num 800)]).lookup k) = some v →
          v.isNum = false → d.lookup k = some v) :=
  microns2pixels_spec [("radius_inner", PyVal.pynone), ("radius_outer", PyVal.num 800)]
    ["radius_inner", "radius_outer"] 2

/-- C7 counterexample: a dictionary missing the `radius_inner` key makes
the conversion fail with a `KeyError` — the `except TypeError` clause does
not catch it — contradicting "conversion never fails for any input
dictionary" and "absent parameters are skipped". -/
theorem microns2pixels_missing_key_cex :
    microns2pixels [("radius_outer", PyVal.num 800)]
      ["radius_inner", "radius_outer"] 2 = .error "radius_inner" := by
  rfl

/-- C10: every row produced by a fresh extraction run — for any job list
and any per-job extraction results, before any merge against prior
regions — has its metadata field equal to exactly the string `"{}"` (the
JSON encoding of the empty object); metadata is never absent or null. -/
theorem extract_wedges_metadata_empty (jobs : List Job) (props : Job → JobProps) :
    ∀ r ∈ extract_wedges_rows jobs props, r.metadata = "{}" := by
  intro r hr
  simp only [extract_wedges_rows, List.mem_map] at hr
  obtain ⟨j, _, hj⟩ := hr
  rw [← hj]
  rfl

/-- C10 witness for `extract_wedges_metadata_empty`, on a one-job run. -/
theorem extract_wedges_metadata_empty_witness :
    (mkRegionRow jobW jobPropsW).metadata = "{}" :=
  extract_wedges_metadata_empty [jobW] (fun _ => jobPropsW)
    (mkRegionRow jobW jobPropsW) (by simp [extract_wedges_rows])

-- Concrete angle evaluations used by the mask theorems.
theorem atan2_zero_of_nonneg {x : ℝ} (hx : 0 ≤ x) : atan2 0 x = 0 := by
  simp only [atan2, Complex.ofReal_zero, zero_mul, add_zero]
  exact Complex.arg_ofReal_of_nonneg hx

theorem atan2_zero_of_neg {x : ℝ} (hx : x < 0) : atan2 0 x = π := by
  simp only [atan2, Complex.ofReal_zero, zero_mul, add_zero]
  exact Complex.arg_ofReal_of_neg hx

theorem atan2_pos_zero {y : ℝ} (hy : 0 < y) : atan2 y 0 = π / 2 := by
  rw [atan2, Complex.arg_eq_pi_div_two_iff]
  constructor
  · simp
  · simpa using hy

theorem atan2_neg_zero {y : ℝ} (hy : y < 0) : atan2 y 0 = -(π / 2) := by
  rw [atan2, Complex.arg_eq_neg_pi_div_two_iff]
  constructor
  · simp
  · simpa using hy

theorem degrees_zero : degrees 0 = 0 := by simp [degrees]

theorem degrees_pi : degrees π = 180 := by
  rw [degrees]
  field_simp

theorem degrees_pi_div_two : degrees (π / 2) = 90 := by
  rw [degrees]
  field_simp
  ring

theorem specNormHi_90 : specNormHi 90 = 90 := by
  have hc : ⌈(90 : ℝ) / 360 - 1 / 2⌉ = 0 := by
    norm_num
  rw [specNormHi, hc]
  norm_num

/-- C1 counterexample: at mpp 1, center (20,20), well (20,30), offset 0,
thickness 5 px and full span 300°, the pixel (8,20) — radius 12 from the
center, angular difference 90° from the facing direction, well inside the
claimed ± span/2 = ±150° window and the radius band [10,15] — satisfies the
claimed membership condition but is NOT in the code's mask: the rasterizer
passes span/2 to its kernel, which halves again, so the effective window is
± span/4 = ±75° < 90°. -/
theorem make_wedge_mask_vs_spec_cex :
    specWedgeMask wedgeParamsCex (8, 20) ∧
      ¬ make_wedge_mask_mem wedgeParamsCex (8, 20) := by
  constructor
  · simp only [specWedgeMask, wedgeParamsCex]
    norm_num
    rw [atan2_zero_of_neg (by norm_num : (-12:ℝ) < 0),
      atan2_pos_zero (by norm_num : (0:ℝ) < 10), degrees_pi, degrees_pi_div_two]
    rw [show (180:ℝ) - 90 = 90 by norm_num, specNormHi_90]
    have hsqrt : Real.sqrt (100:ℝ) = 10 := by
      rw [show (100:ℝ) = 10 ^ 2 by norm_num, Real.sqrt_sq (by norm_num)]
    rw [hsqrt]
    norm_num
  · simp only [make_wedge_mask_mem, make_mask_mem, wedgeParamsCex, cart2pol]
    norm_num
    intro h1 h2
    rw [atan2_zero_of_nonneg (by norm_num : (0:ℝ) ≤ 10), degrees_zero,
      atan2_neg_zero (by norm_num : (-12:ℝ) < 0)] at h2 ⊢
    have hval : (0:ℝ) * (π / 180) - -(π / 2) + π * 3 = π * (7 / 2) := by ring
    rw [hval] at h2 ⊢
    have hdiv : (π * (7 / 2)) / (π * 2) = 7 / 4 := by
      rw [div_eq_iff (by positivity : (π * 2 : ℝ) ≠ 0)]
      ring
    have hpym : pymod (π * (7 / 2)) (π * 2) = π * (3 / 2) := by
      rw [pymod, hdiv]
      rw [show ⌊(7 / 4 : ℝ)⌋ = 1 by norm_num]
      push_cast
      ring
    rw [hpym] at h2 ⊢
    nlinarith [Real.pi_pos]

-- Normalization and angle-convention lemmas for the mask equivalence.
theorem radians_degrees_inv (x : ℝ) : radians (degrees x) = x := by
  have hπ : (π : ℝ) ≠ 0 := Real.pi_ne_zero
  field_simp [radians, degrees]

theorem radians_sub (a b : ℝ) : radians (a - b) = radians a - radians b := by
  simp only [radians]
  ring

theorem pymod_bounds_congr (x : ℝ) :
    -π ≤ pymod (x + π * 3) (π * 2) - π ∧ pymod (x + π * 3) (π * 2) - π < π ∧
      ∃ k : ℤ, x - (pymod (x + π * 3) (π * 2) - π) = 2 * π * k := by
  have h2π : (0:ℝ) < π * 2 := by positivity
  refine ⟨?_, ?_, ?_⟩
  · have := pymod_nonneg (x + π * 3) h2π
    linarith
  · have := pymod_lt (x + π * 3) h2π
    linarith
  · refine ⟨⌊(x + π * 3) / (π * 2)⌋ - 1, ?_⟩
    have h := pymod_sub_eq (x + π * 3) (π * 2)
    push_cast
    linarith

theorem norm_interval_unique {a b : ℝ} (ha1 : -π ≤ a) (ha2 : a < π)
    (hb1 : -π ≤ b) (hb2 : b < π) (h : ∃ k : ℤ, a - b = 2 * π * k) : a = b := by
  obtain ⟨k, hk⟩ := h
  have hπ := Real.pi_pos
  have h1 : (k : ℝ) < 1 := by nlinarith
  have h2 : (-1 : ℝ) < (k : ℝ) := by nlinarith
  have h1' : k < 1 := by exact_mod_cast h1
  have h2' : (-1 : ℤ) < k := by exact_mod_cast h2
  have hk0 : k = 0 := by omega
  rw [hk0] at hk
  push_cast at hk
  linarith

theorem atan2_swap_congr {x y : ℝ} (h : ¬(x = 0 ∧ y = 0)) :
    ∃ k : ℤ, atan2 x y - (π / 2 - atan2 y x) = 2 * π * k := by
  have hzne : ((x : ℂ) + (y : ℂ) * Complex.I) ≠ 0 := by
    intro hc
    apply h
    constructor
    · have := congrArg Complex.re hc
      simpa using this
    · have := congrArg Complex.im hc
      simpa using this
  have hcne : (starRingEnd ℂ) ((x : ℂ) + (y : ℂ) * Complex.I) ≠ 0 := by
    intro hc
    apply hzne
    have := congrArg (starRingEnd ℂ) hc
    simpa using this
  have hz : ((y : ℂ) + (x : ℂ) * Complex.I) =
      Complex.I * (starRingEnd ℂ) ((x : ℂ) + (y : ℂ) * Complex.I) := by
    simp [Complex.ext_iff]
  rw [← Real.Angle.angle_eq_iff_two_pi_dvd_sub]
  rw [atan2, atan2, hz]
  rw [Complex.arg_mul_coe_angle Complex.I_ne_zero hcne,
    Complex.arg_conj_coe_angle, Complex.arg_I]
  rw [Real.Angle.coe_sub, sub_eq_add_neg]

theorem code_angle_eq {dx dy dX dY : ℝ}
    (hpx : ¬(dx = 0 ∧ dy = 0)) (hw : ¬(dX = 0 ∧ dY = 0)) :
    pymod (degrees (atan2 dX dY) * (π / 180) - atan2 dx dy + π * 3) (π * 2) - π =
      radians (normAngle (degrees (atan2 dy dx) - degrees (atan2 dY dX))) := by
  set A := degrees (atan2 dX dY) * (π / 180) - atan2 dx dy with hA
  set D := degrees (atan2 dy dx) - degrees (atan2 dY dX) with hD
  obtain ⟨hb1, hb2, k0, hk0⟩ := pymod_bounds_congr A
  have hnb1 := normAngle_lb D
  have hnb2 := normAngle_ub D
  have hπpos := Real.pi_pos
  have hr1 : -π ≤ radians (normAngle D) := by
    simp only [radians]
    nlinarith
  have hr2 : radians (normAngle D) < π := by
    simp only [radians]
    nlinarith
  obtain ⟨k1, hk1⟩ := atan2_swap_congr hw
  obtain ⟨k2, hk2⟩ := atan2_swap_congr hpx
  obtain ⟨k3, hk3⟩ := normAngle_congruent D
  have hA2 : A = atan2 dX dY - atan2 dx dy := by
    rw [hA]
    have hrd : degrees (atan2 dX dY) * (π / 180) = radians (degrees (atan2 dX dY)) := rfl
    rw [hrd, radians_degrees_inv]
  have hRD : radians D = atan2 dy dx - atan2 dY dX := by
    rw [hD, radians_sub, radians_degrees_inv, radians_degrees_inv]
  have h360 : radians D - radians (normAngle D) = 2 * π * (k3 : ℝ) := by
    rw [← radians_sub, hk3]
    simp only [radians]
    ring
  apply norm_interval_unique hb1 hb2 hr1 hr2
  refine ⟨-k0 + k1 - k2 + k3, ?_⟩
  push_cast
  have hexp : A - (pymod (A + π * 3) (π * 2) - π) = 2 * π * (k0 : ℝ) := hk0
  nlinarith [hexp, hk1, hk2, h360, hA2, hRD]

/-- C1 (amended): for a well distinct from the device center and a
non-negative pixel offset, a pixel is in the code's mask iff
`(R - T)² ≤ dx²+dy² ≤ R²` (with `R = |well-center| + offset/mpp +
thickness/mpp` and `T = thickness/mpp`, exactly as claimed) AND the pixel's
angular difference from the facing direction — in the claimed
clockwise-from-+x, y-down convention — normalized into `[-180, 180)`
(half-open *below*, not the claimed `(-180, 180]`) lies within
`± span_degrees/4`: only HALF the claimed `± span_degrees/2` window,
because `make_wedge_mask_from_wedge_params` passes `span/2` to `make_mask`,
which halves it again. -/
theorem make_wedge_mask_mem_iff (p : WedgeParams) (px : ℤ × ℤ)
    (hwell : p.well ≠ p.center) (hoff : 0 ≤ p.offset / p.mpp) :
    (make_wedge_mask_mem p px ↔ specWedgeMaskAmended p px) := by
  simp only [make_wedge_mask_mem, make_mask_mem, specWedgeMaskAmended, cart2pol]
  set dX : ℤ := p.well.1 - p.center.1 with hdX
  set dY : ℤ := p.well.2 - p.center.2 with hdY
  set dx : ℤ := px.1 - p.center.1 with hdx
  set dy : ℤ := px.2 - p.center.2 with hdy
  have hw : ¬((dX : ℝ) = 0 ∧ (dY : ℝ) = 0) := by
    rintro ⟨h1, h2⟩
    apply hwell
    have h1' : dX = 0 := by exact_mod_cast h1
    have h2' : dY = 0 := by exact_mod_cast h2
    rw [hdX] at h1'
    rw [hdY] at h2'
    exact Prod.ext_iff.mpr ⟨by omega, by omega⟩
  have hcomm : Real.sqrt ((dY : ℝ) ^ 2 + (dX : ℝ) ^ 2) =
      Real.sqrt ((dX : ℝ) ^ 2 + (dY : ℝ) ^ 2) := by
    rw [add_comm]
  have hclpos : 0 < Real.sqrt ((dX : ℝ) ^ 2 + (dY : ℝ) ^ 2) := by
    apply Real.sqrt_pos.mpr
    rcases not_and_or.mp hw with h | h
    · have := lt_of_le_of_ne (sq_nonneg ((dX : ℝ))) (Ne.symm (pow_ne_zero 2 h))
      nlinarith [sq_nonneg ((dY : ℝ))]
    · have := lt_of_le_of_ne (sq_nonneg ((dY : ℝ))) (Ne.symm (pow_ne_zero 2 h))
      nlinarith [sq_nonneg ((dX : ℝ))]
  rw [hcomm, add_sub_cancel_right]
  apply and_congr_right
  intro hA
  apply and_congr_right
  intro _
  have hd2 : (0 : ℝ) < ((dx ^ 2 + dy ^ 2 : ℤ) : ℝ) := by
    have hpos : 0 < Real.sqrt ((dX : ℝ) ^ 2 + (dY : ℝ) ^ 2) + p.offset / p.mpp := by
      linarith
    nlinarith
  have hpx : ¬((dx : ℝ) = 0 ∧ (dy : ℝ) = 0) := by
    rintro ⟨h1, h2⟩
    have h1' : dx = 0 := by exact_mod_cast h1
    have h2' : dy = 0 := by exact_mod_cast h2
    rw [h1', h2'] at hd2
    norm_num at hd2
  have hangle := code_angle_eq hpx hw
  rw [hangle]
  have hscale : (0 : ℝ) < π / 180 := by positivity
  constructor
  · rintro ⟨h1, h2⟩
    constructor
    · have := (mul_le_mul_right hscale).mp (by
        calc (-(p.span / 4)) * (π / 180) = -(p.span / 2 * (π / 180) / 2) := by ring
        _ ≤ radians (normAngle (degrees (atan2 (dy : ℝ) (dx : ℝ)) -
              degrees (atan2 (dY : ℝ) (dX : ℝ)))) := h1
        _ = normAngle (degrees (atan2 (dy : ℝ) (dx : ℝ)) -
              degrees (atan2 (dY : ℝ) (dX : ℝ))) * (π / 180) := rfl)
      exact this
    · have := (mul_le_mul_right hscale).mp (by
        calc normAngle (degrees (atan2 (dy : ℝ) (dx : ℝ)) -
              degrees (atan2 (dY : ℝ) (dX : ℝ))) * (π / 180)
            = radians (normAngle (degrees (atan2 (dy : ℝ) (dx : ℝ)) -
              degrees (atan2 (dY : ℝ) (dX : ℝ)))) := rfl
        _ ≤ p.span / 2 * (π / 180) / 2 := h2
        _ = (p.span / 4) * (π / 180) := by ring)
      exact this
  · rintro ⟨h1, h2⟩
    constructor
    · calc -(p.span / 2 * (π / 180) / 2) = (-(p.span / 4)) * (π / 180) := by ring
        _ ≤ normAngle (degrees (atan2 (dy : ℝ) (dx : ℝ)) -
              degrees (atan2 (dY : ℝ) (dX : ℝ))) * (π / 180) :=
          (mul_le_mul_right hscale).mpr h1
        _ = radians (normAngle (degrees (atan2 (dy : ℝ) (dx : ℝ)) -
              degrees (atan2 (dY : ℝ) (dX : ℝ)))) := rfl
    · calc radians (normAngle (degrees (atan2 (dy : ℝ) (dx : ℝ)) -
              degrees (atan2 (dY : ℝ) (dX : ℝ))))
            = normAngle (degrees (atan2 (dy : ℝ) (dx : ℝ)) -
              degrees (atan2 (dY : ℝ) (dX : ℝ))) * (π / 180) := rfl
        _ ≤ (p.span / 4) * (π / 180) := (mul_le_mul_right hscale).mpr h2
        _ = p.span / 2 * (π / 180) / 2 := by ring

/-- C1 witness for `make_wedge_mask_mem_iff`, at the concrete parameters
and pixel of the counterexample. -/
theorem make_wedge_mask_mem_iff_witness :
    make_wedge_mask_mem wedgeParamsCex (8, 20) ↔
      specWedgeMaskAmended wedgeParamsCex (8, 20) :=
  make_wedge_mask_mem_iff wedgeParamsCex (8, 20) (by decide) (by norm_num [wedgeParamsCex])
